import Mathlib

/-!
Verification development for the excel-file-splitter repository.

The embedding below models the core data-repartitioning logic of
`src/excel_splitter_rewrite.py`, `src/excel_splitter_db.py` and
`src/excel_splitter.py`:

* the Partition Planner `calculate_output_distribution`
  (excel_splitter_rewrite.py, lines 150-249),
* the Chunked Reader `read_sheet_data` (lines 81-110),
* the Output Consolidator's sheet-merge step inside `process_data_segment`
  (lines 282-349),
* the Analyzer `analyze_input_file` / `count_rows_in_sheet` (lines 47-148),
* the staging store of the two-phase mode: `read_sheet_to_db` and
  `get_data_for_sheet` (excel_splitter_db.py, lines 75-122 and 203-227).

Records are identified by their position only (the planner never touches
field values); where field values matter (staging mode) they are modelled
by an arbitrary type with decidable equality.
-/

namespace ExcelSplitter

/-- Lexicographic order on pairs of naturals.  Used both for
(output_file, output_sheet) destination keys and for the staging store's
(source_sheet, row_num) order key. -/
def lexLe (a b : Nat × Nat) : Prop :=
  a.1 < b.1 ∨ (a.1 = b.1 ∧ a.2 ≤ b.2)

instance (a b : Nat × Nat) : Decidable (lexLe a b) := by
  unfold lexLe; exact inferInstance

theorem lexLe_refl (a : Nat × Nat) : lexLe a a := by
  unfold lexLe; omega

theorem lexLe_trans {a b c : Nat × Nat} (h₁ : lexLe a b) (h₂ : lexLe b c) :
    lexLe a c := by
  unfold lexLe at *; omega

theorem lexLe_antisymm {a b : Nat × Nat} (h₁ : lexLe a b) (h₂ : lexLe b a) :
    a = b := by
  unfold lexLe at *
  have : a.1 = b.1 ∧ a.2 = b.2 := by omega
  exact Prod.ext this.1 this.2

theorem lexLe_total (a b : Nat × Nat) : lexLe a b ∨ lexLe b a := by
  unfold lexLe; omega

/-- Strict part of `lexLe`. -/
def lexLt (a b : Nat × Nat) : Prop :=
  a.1 < b.1 ∨ (a.1 = b.1 ∧ a.2 < b.2)

theorem lexLe_of_lexLt {a b : Nat × Nat} (h : lexLt a b) : lexLe a b := by
  unfold lexLt at h; unfold lexLe; omega

theorem lexLe_lexLt_trans {a b c : Nat × Nat} (h₁ : lexLe a b) (h₂ : lexLt b c) :
    lexLt a c := by
  unfold lexLe at h₁; unfold lexLt at *; omega

theorem lexLt_ne {a b : Nat × Nat} (h : lexLt a b) : a ≠ b := by
  intro he; subst he; unfold lexLt at h; omega

/-- One planned source-to-destination data segment.  Mirrors the dict appended
to `data_segments` in `calculate_output_distribution`
(src/excel_splitter_rewrite.py, lines 215-221).  `input_sheet` is the rank of
the input sheet in the workbook's listing order (the Python code keys the
segment by the sheet's name; names are unique and listed in a fixed order, so
the rank identifies the sheet). -/
structure Segment where
  input_sheet : Nat
  start_row : Nat
  num_rows : Nat
  output_file : Nat
  output_sheet : Nat
  deriving DecidableEq

/-- Destination key of a segment: the output (file, sheet) pair. -/
def destKey (s : Segment) : Nat × Nat := (s.output_file, s.output_sheet)

/-- State of the planning walk in `calculate_output_distribution`:
`counts` models the nested dict `output_distribution["files"][f]["sheets"][s]`
(row count already assigned to each output (file, sheet)); `current_file` /
`current_sheet` are the cursor variables of the walk; `segments` is the
`data_segments` list built so far. -/
structure PlanState where
  counts : List ((Nat × Nat) × Nat)
  current_file : Nat
  current_sheet : Nat
  segments : List Segment
  deriving DecidableEq

/-- Row count recorded for an output (file, sheet) key.  The Python dict
creates absent entries with value 0 just before use
(excel_splitter_rewrite.py, lines 200-204); reading an absent key as 0 models
exactly that. -/
def getCount : List ((Nat × Nat) × Nat) → Nat × Nat → Nat
  | [], _ => 0
  | p :: rest, key => if p.1 = key then p.2 else getCount rest key

/-- Update (or create) the row count of an output (file, sheet) key. -/
def setCount : List ((Nat × Nat) × Nat) → Nat × Nat → Nat → List ((Nat × Nat) × Nat)
  | [], key, v => [(key, v)]
  | p :: rest, key, v =>
      if p.1 = key then (key, v) :: rest else p :: setCount rest key v

/-- Cursor advance of the planning walk (excel_splitter_rewrite.py,
lines 235-240 and 243-246): move to the next sheet slot; when the current
file's `sheets_per_file` slots are exhausted, move to sheet 1 of a new
file. -/
def advanceKey (G : Nat) (k : Nat × Nat) : Nat × Nat :=
  if G < k.2 + 1 then (k.1 + 1, 1) else (k.1, k.2 + 1)

theorem lexLt_advanceKey (G : Nat) (k : Nat × Nat) : lexLt k (advanceKey G k) := by
  unfold advanceKey lexLt
  by_cases h : G < k.2 + 1 <;> simp [h]

theorem advanceKey_sheet_ge (G : Nat) (k : Nat × Nat) : 1 ≤ (advanceKey G k).2 := by
  unfold advanceKey
  by_cases h : G < k.2 + 1 <;> simp [h]

theorem advanceKey_sheet_le {G : Nat} (hG : 1 ≤ G) (k : Nat × Nat) :
    (advanceKey G k).2 ≤ G := by
  unfold advanceKey
  by_cases h : G < k.2 + 1 <;> simp [h] <;> omega

/-- Inner `while rows_processed < sheet_data_rows` loop of
`calculate_output_distribution` (excel_splitter_rewrite.py, lines 195-246) for
one input sheet of `size` data rows, rank `sheet`.

`rows_processed` and `pos` are the Python variables `rows_processed` and
`current_positions[sheet_name]`; both start at 0 for each sheet and are
advanced together by `rows_to_copy`.

The recursion is driven by explicit fuel (the Python loop has no structural
bound).  When `data_rows_per_sheet ≥ 1`, every iteration of the Python loop
copies at least one row, so the loop performs at most `size` productive
iterations; `planGroups` below passes `size` as fuel, which reproduces the
loop exactly in that case.  (With `data_rows_per_sheet = 0` the Python loop
would never terminate.) -/
def distributeGroup (R G sheet size : Nat) :
    Nat → Nat → Nat → PlanState → PlanState
  | 0, _, _, st => st
  | fuel + 1, rows_processed, pos, st =>
    if rows_processed < size then
      let rows_left := size - rows_processed
      let cur_rows := getCount st.counts (st.current_file, st.current_sheet)
      let rows_to_copy := min rows_left (R - cur_rows)
      if 0 < rows_to_copy then
        let seg : Segment :=
          { input_sheet := sheet, start_row := pos, num_rows := rows_to_copy,
            output_file := st.current_file, output_sheet := st.current_sheet }
        let counts' :=
          setCount st.counts (st.current_file, st.current_sheet) (cur_rows + rows_to_copy)
        let fs :=
          if R ≤ cur_rows + rows_to_copy then
            advanceKey G (st.current_file, st.current_sheet)
          else (st.current_file, st.current_sheet)
        distributeGroup R G sheet size fuel (rows_processed + rows_to_copy)
          (pos + rows_to_copy)
          { counts := counts', current_file := fs.1, current_sheet := fs.2,
            segments := st.segments ++ [seg] }
      else
        let fs := advanceKey G (st.current_file, st.current_sheet)
        distributeGroup R G sheet size fuel rows_processed pos
          { st with current_file := fs.1, current_sheet := fs.2 }
    else st

/-- Outer `for sheet_name in input_analysis["sheet_names"]` loop of
`calculate_output_distribution` (excel_splitter_rewrite.py, lines 191-246):
processes the (rank, data_rows) list of input sheets in listing order. -/
def planGroups (R G : Nat) : List (Nat × Nat) → PlanState → PlanState
  | [], st => st
  | (sheet, size) :: rest, st =>
      planGroups R G rest (distributeGroup R G sheet size size 0 0 st)

/-- Ceiling division on naturals; for `1 ≤ b` this equals
`math.ceil(a / b)` as computed by the Python code. -/
def ceilDiv (a b : Nat) : Nat := (a + b - 1) / b

/-- Result of `calculate_output_distribution`
(excel_splitter_rewrite.py, lines 150-249). -/
structure Distribution where
  total_output_files : Nat
  total_output_sheets : Nat
  files : List ((Nat × Nat) × Nat)
  data_segments : List Segment
  deriving DecidableEq

/-- Initial state of the planning walk (excel_splitter_rewrite.py,
lines 180-188): empty output bookkeeping, cursor at file 1 / sheet 1, no
segments yet. -/
def initState : PlanState :=
  { counts := [], current_file := 1, current_sheet := 1, segments := [] }

/-- The Partition Planner `calculate_output_distribution`
(excel_splitter_rewrite.py, lines 150-249).  `sizes` is the list of per-sheet
data-row counts of `input_analysis`, in workbook listing order;
`sheets_per_file` and `data_rows_per_sheet` are the capacity policy (G, R).
The sheet name of rank `i` is identified with `i` (see `Segment`). -/
def calculate_output_distribution (sizes : List Nat)
    (sheets_per_file data_rows_per_sheet : Nat) : Distribution :=
  let total_data_rows := sizes.sum
  let total_output_sheets := ceilDiv total_data_rows data_rows_per_sheet
  let total_output_files := ceilDiv total_output_sheets sheets_per_file
  let st := planGroups data_rows_per_sheet sheets_per_file sizes.enum initState
  { total_output_files := total_output_files,
    total_output_sheets := total_output_sheets,
    files := st.counts,
    data_segments := st.segments }

/-! ### Bookkeeping lemmas for the planner state -/

theorem getCount_setCount_self (c : List ((Nat × Nat) × Nat)) (k : Nat × Nat) (v : Nat) :
    getCount (setCount c k v) k = v := by
  induction c with
  | nil => simp [getCount, setCount]
  | cons p rest ih =>
    by_cases h : p.1 = k
    · simp [getCount, setCount, h]
    · simp [getCount, setCount, h, ih]

theorem getCount_setCount_ne (c : List ((Nat × Nat) × Nat)) (k k' : Nat × Nat) (v : Nat)
    (h : k' ≠ k) : getCount (setCount c k v) k' = getCount c k' := by
  have h' : ¬ k = k' := fun he => h he.symm
  induction c with
  | nil => simp [getCount, setCount, h']
  | cons p rest ih =>
    by_cases hp : p.1 = k
    · rw [setCount, if_pos hp]
      simp [getCount, h', hp]
    · rw [setCount, if_neg hp]
      by_cases hk : p.1 = k'
      · simp [getCount, hk]
      · simp [getCount, hk, ih]

theorem mem_setCount {c : List ((Nat × Nat) × Nat)} {k : Nat × Nat} {v : Nat}
    {p : (Nat × Nat) × Nat} (h : p ∈ setCount c k v) : p = (k, v) ∨ p ∈ c := by
  induction c with
  | nil => simpa [setCount] using h
  | cons q rest ih =>
    by_cases hq : q.1 = k
    · rw [setCount, if_pos hq] at h
      rcases List.mem_cons.mp h with h1 | h1
      · exact Or.inl h1
      · exact Or.inr (List.mem_cons_of_mem _ h1)
    · rw [setCount, if_neg hq] at h
      rcases List.mem_cons.mp h with h1 | h1
      · exact Or.inr (by simp [h1])
      · rcases ih h1 with h2 | h2
        · exact Or.inl h2
        · exact Or.inr (List.mem_cons_of_mem _ h2)

theorem getCount_eq_zero {c : List ((Nat × Nat) × Nat)} {k : Nat × Nat}
    (h : ∀ p ∈ c, p.1 ≠ k) : getCount c k = 0 := by
  induction c with
  | nil => rfl
  | cons p rest ih =>
    have hp : p.1 ≠ k := h p (by simp)
    simp [getCount, hp, ih fun q hq => h q (List.mem_cons_of_mem _ hq)]

theorem getCount_le {c : List ((Nat × Nat) × Nat)} {R : Nat} {k : Nat × Nat}
    (h : ∀ p ∈ c, p.2 ≤ R) : getCount c k ≤ R := by
  induction c with
  | nil => exact Nat.zero_le R
  | cons p rest ih =>
    by_cases hp : p.1 = k
    · simpa [getCount, hp] using h p (by simp)
    · simpa [getCount, hp] using ih fun q hq => h q (List.mem_cons_of_mem _ hq)

/-- Total number of rows the listed segments assign to the output
(file, sheet) key `k`. -/
def keySum : List Segment → Nat × Nat → Nat
  | [], _ => 0
  | s :: rest, k => (if destKey s = k then s.num_rows else 0) + keySum rest k

theorem keySum_append (l₁ l₂ : List Segment) (k : Nat × Nat) :
    keySum (l₁ ++ l₂) k = keySum l₁ k + keySum l₂ k := by
  induction l₁ with
  | nil => simp [keySum]
  | cons s rest ih => simp [keySum, ih]; omega

/-- The listed segments cover the source row range `[a, n)` contiguously and
in order. -/
def covers : List Segment → Nat → Nat → Prop
  | [], a, n => a = n
  | s :: rest, a, n => s.start_row = a ∧ covers rest (a + s.num_rows) n

theorem covers_le : ∀ (segs : List Segment) (a n : Nat), covers segs a n → a ≤ n
  | [], _, _, h => Nat.le_of_eq h
  | s :: rest, a, n, h =>
      Nat.le_trans (Nat.le_add_right a s.num_rows) (covers_le rest _ n h.2)

/-- The source records (as (group rank, data-row index) pairs) that a segment
instructs the Chunked Reader to copy. -/
def segRecords (s : Segment) : List (Nat × Nat) :=
  (List.range s.num_rows).map fun r => (s.input_sheet, s.start_row + r)

theorem covers_flatMap (i : Nat) :
    ∀ (segs : List Segment) (a n : Nat), covers segs a n →
      (∀ s ∈ segs, s.input_sheet = i) →
      segs.flatMap segRecords = (List.range' a (n - a)).map fun r => (i, r) := by
  intro segs
  induction segs with
  | nil =>
    intro a n h _
    have : a = n := h
    subst this
    simp
  | cons s rest ih =>
    intro a n h hmem
    obtain ⟨hs, hrest⟩ := h
    have hi : s.input_sheet = i := hmem s (by simp)
    have hle : a + s.num_rows ≤ n := covers_le rest _ n hrest
    have h1 : segRecords s = (List.range' a s.num_rows).map fun r => (i, r) := by
      unfold segRecords
      rw [List.range'_eq_map_range, List.map_map]
      simp [hi, hs]
    rw [List.flatMap_cons, h1,
      ih _ _ hrest fun t ht => hmem t (List.mem_cons_of_mem _ ht),
      ← List.map_append]
    have h2 : n - a = (n - (a + s.num_rows)) + s.num_rows := by omega
    rw [h2, ← List.range'_append_1]

theorem covers_eq_nil {segs : List Segment} {a : Nat}
    (h : covers segs a a) (hlen : ∀ s ∈ segs, 1 ≤ s.num_rows) : segs = [] := by
  cases segs with
  | nil => rfl
  | cons s rest =>
    obtain ⟨_, hrest⟩ := h
    have h1 : a + s.num_rows ≤ a := covers_le rest _ a hrest
    have h2 : 1 ≤ s.num_rows := hlen s (by simp)
    omega

/-! ### Invariant of the planning walk -/

/-- Current destination cursor of the walk. -/
def curKey (st : PlanState) : Nat × Nat := (st.current_file, st.current_sheet)

/-- Invariant maintained by `calculate_output_distribution`'s walk whenever
`1 ≤ data_rows_per_sheet`: the open destination holds fewer than R rows, all
recorded destinations lie at or before the cursor in lexicographic order,
every recorded row count is at most R, and the cursor's sheet slot is within
`[1, sheets_per_file]`. -/
structure Inv (R G : Nat) (st : PlanState) : Prop where
  cur_lt : getCount st.counts (curKey st) < R
  keys_le : ∀ p ∈ st.counts, lexLe p.1 (curKey st)
  vals_le : ∀ p ∈ st.counts, p.2 ≤ R
  sheet_ge : 1 ≤ st.current_sheet
  sheet_le : st.current_sheet ≤ G

theorem initial_Inv {R G : Nat} (hR : 1 ≤ R) (hG : 1 ≤ G) : Inv R G initState where
  cur_lt := hR
  keys_le := by intro p hp; simp [initState] at hp
  vals_le := by intro p hp; simp [initState] at hp
  sheet_ge := Nat.le_refl 1
  sheet_le := hG

/-! ### Unfolding equations for the planning loop -/

theorem distributeGroup_zero (R G sheet size rp pos : Nat) (st : PlanState) :
    distributeGroup R G sheet size 0 rp pos st = st := rfl

theorem distributeGroup_done (R G sheet size fuel rp pos : Nat) (st : PlanState)
    (h : ¬ rp < size) :
    distributeGroup R G sheet size (fuel + 1) rp pos st = st := by
  simp only [distributeGroup]
  rw [if_neg h]

theorem distributeGroup_succ (R G sheet size fuel rp pos : Nat) (st : PlanState)
    (hlt : rp < size)
    (hcpos : 0 < min (size - rp) (R - getCount st.counts (st.current_file, st.current_sheet))) :
    distributeGroup R G sheet size (fuel + 1) rp pos st =
      distributeGroup R G sheet size fuel
        (rp + min (size - rp) (R - getCount st.counts (st.current_file, st.current_sheet)))
        (pos + min (size - rp) (R - getCount st.counts (st.current_file, st.current_sheet)))
        { counts := setCount st.counts (st.current_file, st.current_sheet)
            (getCount st.counts (st.current_file, st.current_sheet) +
              min (size - rp) (R - getCount st.counts (st.current_file, st.current_sheet))),
          current_file :=
            (if R ≤ getCount st.counts (st.current_file, st.current_sheet) +
                  min (size - rp) (R - getCount st.counts (st.current_file, st.current_sheet))
             then advanceKey G (st.current_file, st.current_sheet)
             else (st.current_file, st.current_sheet)).1,
          current_sheet :=
            (if R ≤ getCount st.counts (st.current_file, st.current_sheet) +
                  min (size - rp) (R - getCount st.counts (st.current_file, st.current_sheet))
             then advanceKey G (st.current_file, st.current_sheet)
             else (st.current_file, st.current_sheet)).2,
          segments := st.segments ++
            [{ input_sheet := sheet, start_row := pos,
               num_rows := min (size - rp)
                 (R - getCount st.counts (st.current_file, st.current_sheet)),
               output_file := st.current_file, output_sheet := st.current_sheet }] } := by
  simp only [distributeGroup]
  rw [if_pos hlt, if_pos hcpos]

/-- Invariant preservation for one productive iteration of the walk. -/
theorem Inv_step {R G : Nat} (hG : 1 ≤ G) {st : PlanState} (hInv : Inv R G st)
    {c : Nat} (hcpos : 0 < c)
    (hcle : getCount st.counts (curKey st) + c ≤ R) (segs' : List Segment) :
    Inv R G { counts := setCount st.counts (curKey st) (getCount st.counts (curKey st) + c),
              current_file := (if R ≤ getCount st.counts (curKey st) + c
                then advanceKey G (curKey st) else curKey st).1,
              current_sheet := (if R ≤ getCount st.counts (curKey st) + c
                then advanceKey G (curKey st) else curKey st).2,
              segments := segs' } := by
  by_cases hfill : R ≤ getCount st.counts (curKey st) + c
  · rw [if_pos hfill]
    constructor
    · show getCount (setCount st.counts (curKey st) (getCount st.counts (curKey st) + c))
        ((advanceKey G (curKey st)).1, (advanceKey G (curKey st)).2) < R
      rw [Prod.mk.eta]
      have hz : getCount (setCount st.counts (curKey st) (getCount st.counts (curKey st) + c))
          (advanceKey G (curKey st)) = 0 := by
        apply getCount_eq_zero
        intro p hp
        have hple : lexLe p.1 (curKey st) := by
          rcases mem_setCount hp with h1 | h1
          · rw [h1]; exact lexLe_refl _
          · exact hInv.keys_le p h1
        exact lexLt_ne (lexLe_lexLt_trans hple (lexLt_advanceKey G (curKey st)))
      rw [hz]
      omega
    · intro p hp
      show lexLe p.1 ((advanceKey G (curKey st)).1, (advanceKey G (curKey st)).2)
      rw [Prod.mk.eta]
      have hple : lexLe p.1 (curKey st) := by
        rcases mem_setCount hp with h1 | h1
        · rw [h1]; exact lexLe_refl _
        · exact hInv.keys_le p h1
      exact lexLe_trans hple (lexLe_of_lexLt (lexLt_advanceKey G (curKey st)))
    · intro p hp
      rcases mem_setCount hp with h1 | h1
      · rw [h1]; exact hcle
      · exact hInv.vals_le p h1
    · exact advanceKey_sheet_ge G (curKey st)
    · exact advanceKey_sheet_le hG (curKey st)
  · rw [if_neg hfill]
    constructor
    · show getCount (setCount st.counts (curKey st) (getCount st.counts (curKey st) + c))
        ((curKey st).1, (curKey st).2) < R
      rw [Prod.mk.eta, getCount_setCount_self]
      omega
    · intro p hp
      show lexLe p.1 ((curKey st).1, (curKey st).2)
      rw [Prod.mk.eta]
      rcases mem_setCount hp with h1 | h1
      · rw [h1]; exact lexLe_refl _
      · exact hInv.keys_le p h1
    · intro p hp
      rcases mem_setCount hp with h1 | h1
      · rw [h1]; exact hcle
      · exact hInv.vals_le p h1
    · exact hInv.sheet_ge
    · exact hInv.sheet_le

theorem lexLe_if_advanceKey (R G v : Nat) (k : Nat × Nat) :
    lexLe k (if R ≤ v then advanceKey G k else k) := by
  by_cases h : R ≤ v
  · rw [if_pos h]; exact lexLe_of_lexLt (lexLt_advanceKey G k)
  · rw [if_neg h]; exact lexLe_refl k

/-- Master specification of the inner planning loop: starting from any state
satisfying the invariant, the loop emits segments that cover `[rp, size)` of
the current input sheet contiguously and in order, with monotonically
non-decreasing destinations lying between the entry and exit cursors, and it
adds exactly the emitted row counts to the per-destination bookkeeping. -/
theorem distributeGroup_spec (R G sheet size : Nat) (hG : 1 ≤ G) :
    ∀ (fuel rp : Nat) (st : PlanState), rp ≤ size → size ≤ rp + fuel → Inv R G st →
      ∃ new,
        (distributeGroup R G sheet size fuel rp rp st).segments = st.segments ++ new ∧
        Inv R G (distributeGroup R G sheet size fuel rp rp st) ∧
        lexLe (curKey st) (curKey (distributeGroup R G sheet size fuel rp rp st)) ∧
        covers new rp size ∧
        (∀ s ∈ new, s.input_sheet = sheet ∧ 1 ≤ s.num_rows ∧
          1 ≤ s.output_sheet ∧ s.output_sheet ≤ G ∧
          lexLe (curKey st) (destKey s) ∧
          lexLe (destKey s) (curKey (distributeGroup R G sheet size fuel rp rp st))) ∧
        List.Pairwise (fun x y => lexLe (destKey x) (destKey y)) new ∧
        (∀ k, getCount (distributeGroup R G sheet size fuel rp rp st).counts k =
          getCount st.counts k + keySum new k) := by
  intro fuel
  induction fuel with
  | zero =>
    intro rp st h1 h2 hInv
    have hrp : rp = size := by omega
    subst hrp
    exact ⟨[], by simp [distributeGroup_zero], hInv, lexLe_refl _, rfl,
      by intro s hs; simp at hs, List.Pairwise.nil,
      by intro k; simp [distributeGroup_zero, keySum]⟩
  | succ fuel ih =>
    intro rp st h1 h2 hInv
    by_cases hlt : rp < size
    · have hcur : getCount st.counts (st.current_file, st.current_sheet) < R := hInv.cur_lt
      have hcpos :
          0 < min (size - rp) (R - getCount st.counts (st.current_file, st.current_sheet)) := by
        omega
      rw [distributeGroup_succ R G sheet size fuel rp rp st hlt hcpos]
      set c := min (size - rp) (R - getCount st.counts (st.current_file, st.current_sheet))
        with hc
      set st₁ : PlanState :=
        { counts := setCount st.counts (st.current_file, st.current_sheet)
            (getCount st.counts (st.current_file, st.current_sheet) + c),
          current_file :=
            (if R ≤ getCount st.counts (st.current_file, st.current_sheet) + c
             then advanceKey G (st.current_file, st.current_sheet)
             else (st.current_file, st.current_sheet)).1,
          current_sheet :=
            (if R ≤ getCount st.counts (st.current_file, st.current_sheet) + c
             then advanceKey G (st.current_file, st.current_sheet)
             else (st.current_file, st.current_sheet)).2,
          segments := st.segments ++
            [{ input_sheet := sheet, start_row := rp, num_rows := c,
               output_file := st.current_file, output_sheet := st.current_sheet }] }
        with hst₁
      have hcle : getCount st.counts (st.current_file, st.current_sheet) + c ≤ R := by
        have h3 := Nat.min_le_right (size - rp)
          (R - getCount st.counts (st.current_file, st.current_sheet))
        omega
      have hInv₁ : Inv R G st₁ := by
        rw [hst₁]
        exact Inv_step hG hInv hcpos hcle _
      have hmono₁ : lexLe (curKey st) (curKey st₁) := by
        rw [hst₁]
        show lexLe (curKey st)
          ((if R ≤ getCount st.counts (st.current_file, st.current_sheet) + c
            then advanceKey G (st.current_file, st.current_sheet)
            else (st.current_file, st.current_sheet)).1,
           (if R ≤ getCount st.counts (st.current_file, st.current_sheet) + c
            then advanceKey G (st.current_file, st.current_sheet)
            else (st.current_file, st.current_sheet)).2)
        rw [Prod.mk.eta]
        exact lexLe_if_advanceKey R G _ (curKey st)
      obtain ⟨new₁, hsegs₁, hInv', hmono', hcov₁, hmem₁, hpair₁, hcnt₁⟩ :=
        ih (rp + c) st₁ (by omega) (by omega) hInv₁
      refine ⟨{ input_sheet := sheet, start_row := rp, num_rows := c,
                output_file := st.current_file, output_sheet := st.current_sheet } :: new₁,
        ?_, hInv', lexLe_trans hmono₁ hmono', ?_, ?_, ?_, ?_⟩
      · rw [hsegs₁, hst₁]
        simp
      · exact ⟨rfl, hcov₁⟩
      · intro s hs
        rcases List.mem_cons.mp hs with hs1 | hs1
        · subst hs1
          exact ⟨rfl, hcpos, hInv.sheet_ge, hInv.sheet_le, lexLe_refl _,
            lexLe_trans hmono₁ hmono'⟩
        · obtain ⟨ha, hb, hc', hd, he, hf⟩ := hmem₁ s hs1
          exact ⟨ha, hb, hc', hd, lexLe_trans hmono₁ he, hf⟩
      · refine List.pairwise_cons.mpr ⟨?_, hpair₁⟩
        intro s hs
        exact lexLe_trans hmono₁ (hmem₁ s hs).2.2.2.2.1
      · intro k
        rw [hcnt₁ k]
        by_cases hk : k = (st.current_file, st.current_sheet)
        · subst hk
          have hself : getCount st₁.counts (st.current_file, st.current_sheet) =
              getCount st.counts (st.current_file, st.current_sheet) + c := by
            rw [hst₁]
            exact getCount_setCount_self _ _ _
          rw [hself]
          simp only [keySum, destKey, if_pos]
          omega
        · have hne : getCount st₁.counts k = getCount st.counts k := by
            rw [hst₁]
            exact getCount_setCount_ne _ _ _ _ hk
          rw [hne]
          simp only [keySum, destKey]
          rw [if_neg (Ne.symm hk)]
          omega
    · have hrp : rp = size := by omega
      rw [distributeGroup_done R G sheet size fuel rp rp st hlt]
      exact ⟨[], by simp, hInv, lexLe_refl _, hrp,
        by intro s hs; simp at hs, List.Pairwise.nil,
        by intro k; simp [keySum]⟩

/-- Specification of the whole planning walk over the ordered list of
(rank, size) input groups. -/
theorem planGroups_spec (R G : Nat) (hG : 1 ≤ G) :
    ∀ (groups : List (Nat × Nat)) (st : PlanState), Inv R G st →
      ∃ new,
        (planGroups R G groups st).segments = st.segments ++ new ∧
        Inv R G (planGroups R G groups st) ∧
        lexLe (curKey st) (curKey (planGroups R G groups st)) ∧
        new.flatMap segRecords =
          groups.flatMap (fun p => (List.range p.2).map fun r => (p.1, r)) ∧
        List.Pairwise (fun x y => lexLe (destKey x) (destKey y)) new ∧
        (∀ s ∈ new, 1 ≤ s.num_rows ∧ 1 ≤ s.output_sheet ∧ s.output_sheet ≤ G ∧
          lexLe (curKey st) (destKey s) ∧
          lexLe (destKey s) (curKey (planGroups R G groups st)) ∧
          s.input_sheet ∈ groups.map Prod.fst) ∧
        (∀ k, getCount (planGroups R G groups st).counts k =
          getCount st.counts k + keySum new k) ∧
        ((groups.map Prod.fst).Nodup →
          ∀ i n, (i, n) ∈ groups →
            covers (new.filter fun s => s.input_sheet == i) 0 n) := by
  intro groups
  induction groups with
  | nil =>
    intro st hInv
    exact ⟨[], by simp [planGroups], hInv, lexLe_refl _, by simp, List.Pairwise.nil,
      by intro s hs; simp at hs,
      by intro k; simp [planGroups, keySum],
      by intro _ i n hin; simp at hin⟩
  | cons g rest ih =>
    intro st hInv
    obtain ⟨i, n⟩ := g
    obtain ⟨new₀, hs₀, hInv₀, hmono₀, hcov₀, hmem₀, hpair₀, hcnt₀⟩ :=
      distributeGroup_spec R G i n hG n 0 st (Nat.zero_le n) (by omega) hInv
    obtain ⟨new₁, hs₁, hInv₁, hmono₁, hflat₁, hpair₁, hmem₁, hcnt₁, hfc₁⟩ :=
      ih (distributeGroup R G i n n 0 0 st) hInv₀
    have hplan : planGroups R G ((i, n) :: rest) st =
        planGroups R G rest (distributeGroup R G i n n 0 0 st) := rfl
    rw [hplan]
    refine ⟨new₀ ++ new₁, ?_, hInv₁, lexLe_trans hmono₀ hmono₁, ?_, ?_, ?_, ?_, ?_⟩
    · rw [hs₁, hs₀, List.append_assoc]
    · have h4 := covers_flatMap i new₀ 0 n hcov₀ (fun s hs => (hmem₀ s hs).1)
      rw [List.flatMap_append, List.flatMap_cons, h4, hflat₁]
      simp [List.range_eq_range']
    · refine List.pairwise_append.mpr ⟨hpair₀, hpair₁, ?_⟩
      intro x hx y hy
      exact lexLe_trans (hmem₀ x hx).2.2.2.2.2 (hmem₁ y hy).2.2.2.1
    · intro s hs
      rcases List.mem_append.mp hs with hs1 | hs1
      · obtain ⟨hin, hnum, hsg, hsl, hd1, hd2⟩ := hmem₀ s hs1
        exact ⟨hnum, hsg, hsl, hd1, lexLe_trans hd2 hmono₁,
          by simp only [List.map_cons]; rw [hin]; exact List.mem_cons_self _ _⟩
      · obtain ⟨hnum, hsg, hsl, hd1, hd2, hfst⟩ := hmem₁ s hs1
        exact ⟨hnum, hsg, hsl, lexLe_trans hmono₀ hd1, hd2,
          by simp only [List.map_cons]; exact List.mem_cons_of_mem _ hfst⟩
    · intro k
      rw [hcnt₁ k, hcnt₀ k, keySum_append]
      omega
    · intro hnd i' n' hin'
      simp only [List.map_cons] at hnd
      have hni : i ∉ rest.map Prod.fst := (List.nodup_cons.mp hnd).1
      have hndr : (rest.map Prod.fst).Nodup := (List.nodup_cons.mp hnd).2
      rw [List.filter_append]
      rcases List.mem_cons.mp hin' with h5 | h5
      · injection h5 with h6 h7
        rw [h6, h7]
        have hf0 : new₀.filter (fun s => s.input_sheet == i) = new₀ :=
          List.filter_eq_self.mpr fun s hs => by
            simp [(hmem₀ s hs).1]
        have hf1 : new₁.filter (fun s => s.input_sheet == i) = [] :=
          List.filter_eq_nil_iff.mpr fun s hs => by
            have hfst := (hmem₁ s hs).2.2.2.2.2
            simp only [beq_iff_eq]
            intro he
            rw [he] at hfst
            exact hni hfst
        rw [hf0, hf1, List.append_nil]
        exact hcov₀
      · have hj : i' ∈ rest.map Prod.fst := List.mem_map.mpr ⟨(i', n'), h5, rfl⟩
        have hne : i ≠ i' := fun he => hni (by rw [he]; exact hj)
        have hf0 : new₀.filter (fun s => s.input_sheet == i') = [] :=
          List.filter_eq_nil_iff.mpr fun s hs => by
            have hin := (hmem₀ s hs).1
            simp only [beq_iff_eq]
            intro he
            exact hne (by rw [← hin]; exact he)
        rw [hf0, List.nil_append]
        exact hfc₁ hndr i' n' h5

/-- All input records in original order, as (group rank, data-row index)
pairs: groups in listing order and, inside each group of size `n`, the rows
`0, …, n-1` in order. -/
def sourceRecords (sizes : List Nat) : List (Nat × Nat) :=
  sizes.enum.flatMap fun p => (List.range p.2).map fun r => (p.1, r)

theorem sourceRecords_length (sizes : List Nat) :
    (sourceRecords sizes).length = sizes.sum := by
  unfold sourceRecords
  rw [List.flatMap_def, List.length_flatten, List.map_map]
  have h1 : sizes.enum.map (List.length ∘ fun p => (List.range p.2).map fun r => (p.1, r)) =
      sizes.enum.map Prod.snd := by
    apply List.map_congr_left
    intro p _
    simp
  rw [h1, List.enum_map_snd]

/-- Specialization of `planGroups_spec` to the planner's initial state: the
facts about `calculate_output_distribution`'s segment list shared by the
round-trip, counting and capacity claims. -/
theorem calculate_segments_spec (sizes : List Nat) (G R : Nat) (hG : 1 ≤ G) (hR : 1 ≤ R) :
    ((calculate_output_distribution sizes G R).data_segments.flatMap segRecords =
      sourceRecords sizes) ∧
    List.Pairwise (fun x y => lexLe (destKey x) (destKey y))
      (calculate_output_distribution sizes G R).data_segments ∧
    (∀ s ∈ (calculate_output_distribution sizes G R).data_segments,
      1 ≤ s.num_rows ∧ 1 ≤ s.output_sheet ∧ s.output_sheet ≤ G) ∧
    (∀ k, keySum (calculate_output_distribution sizes G R).data_segments k ≤ R) ∧
    (∀ i, covers
      ((calculate_output_distribution sizes G R).data_segments.filter
        fun s => s.input_sheet == i) 0 (sizes.getD i 0)) := by
  obtain ⟨new, hsegs, hInv, hmono, hflat, hpair, hmem, hcnt, hfc⟩ :=
    planGroups_spec R G hG sizes.enum initState (initial_Inv hR hG)
  have hnew : (calculate_output_distribution sizes G R).data_segments = new := by
    show (planGroups R G sizes.enum initState).segments = new
    rw [hsegs]
    show initState.segments ++ new = new
    simp [initState]
  refine ⟨?_, ?_, ?_, ?_, ?_⟩
  · rw [hnew, hflat]
    rfl
  · rw [hnew]
    exact hpair
  · intro s hs
    rw [hnew] at hs
    exact ⟨(hmem s hs).1, (hmem s hs).2.1, (hmem s hs).2.2.1⟩
  · intro k
    rw [hnew]
    have h1 : getCount (planGroups R G sizes.enum initState).counts k =
        0 + keySum new k := hcnt k
    have h3 : getCount (planGroups R G sizes.enum initState).counts k ≤ R :=
      getCount_le hInv.vals_le
    omega
  · intro i
    rw [hnew]
    by_cases hi : i < sizes.length
    · refine hfc ?_ i (sizes.getD i 0) ?_
      · rw [List.enum_map_fst]
        exact List.nodup_range _
      · refine List.mem_enum_iff_getElem?.mpr ?_
        show sizes[i]? = some (sizes.getD i 0)
        rw [List.getElem?_eq_getElem hi]
        simp [List.getD_eq_getElem?_getD, List.getElem?_eq_getElem hi]
    · have hf : new.filter (fun s => s.input_sheet == i) = [] :=
        List.filter_eq_nil_iff.mpr fun s hs => by
          have hfst := (hmem s hs).2.2.2.2.2
          rw [List.enum_map_fst] at hfst
          have hlt := List.mem_range.mp hfst
          simp only [beq_iff_eq]
          intro he
          rw [he] at hlt
          omega
      rw [hf]
      have hgd : sizes.getD i 0 = 0 := by
        rw [List.getD_eq_getElem?_getD, List.getElem?_eq_none (by omega)]
        rfl
      rw [hgd]
      rfl

/-- Galois characterization of ceiling division: for `1 ≤ R`,
`ceilDiv a R` is the least `m` with `a ≤ R * m`, which is exactly
`⌈a / R⌉`. -/
theorem ceilDiv_le_iff {R : Nat} (hR : 1 ≤ R) (a m : Nat) :
    ceilDiv a R ≤ m ↔ a ≤ R * m := by
  unfold ceilDiv
  rw [← Nat.lt_succ_iff, Nat.div_lt_iff_lt_mul (show 0 < R by omega), Nat.succ_mul,
    Nat.mul_comm R m]
  generalize m * R = t
  omega

/-- C1: Round-trip order preservation.  For every ordered list of input group
sizes and every capacity policy `G ≥ 1`, `R ≥ 1`: (a) concatenating the
records of the planner's segments in list order reproduces exactly the
original records in (group rank, row number) order — no loss, duplication or
reordering; (b) destination (artifact, group) keys are monotone along the
segment list, so reading the output groups in target order is the same as
reading the segments in list order, and since every segment is non-empty (c),
within-target offsets are strictly increasing as well; (d) the segments
assigned to source group `i` cover its full range `[0, size_i)` contiguously
and in order. -/
theorem planner_round_trip (sizes : List Nat) (G R : Nat) (hG : 1 ≤ G) (hR : 1 ≤ R) :
    ((calculate_output_distribution sizes G R).data_segments.flatMap segRecords =
      sourceRecords sizes) ∧
    List.Pairwise (fun x y => lexLe (destKey x) (destKey y))
      (calculate_output_distribution sizes G R).data_segments ∧
    (∀ s ∈ (calculate_output_distribution sizes G R).data_segments, 1 ≤ s.num_rows) ∧
    (∀ i, covers
      ((calculate_output_distribution sizes G R).data_segments.filter
        fun s => s.input_sheet == i) 0 (sizes.getD i 0)) := by
  obtain ⟨h1, h2, h3, _, h5⟩ := calculate_segments_spec sizes G R hG hR
  exact ⟨h1, h2, fun s hs => (h3 s hs).1, h5⟩

theorem planner_round_trip_witness :
    (calculate_output_distribution [7, 5] 2 4).data_segments.flatMap segRecords =
      sourceRecords [7, 5] :=
  (planner_round_trip [7, 5] 2 4 (by decide) (by decide)).1

/-- C2: Worked example.  For input groups A (7 records) then B (5 records)
with `R = 4` records per output group and `G = 2` groups per artifact, the
planner produces exactly target (1,1) = A[0:4], target (1,2) = A[4:7] ++
B[0:1], target (2,1) = B[1:5]: artifact 1 holds the first two targets,
artifact 2 holds the third, and the reported totals are 3 output groups in 2
artifacts. -/
theorem planner_worked_example :
    (calculate_output_distribution [7, 5] 2 4).data_segments =
      [{ input_sheet := 0, start_row := 0, num_rows := 4,
         output_file := 1, output_sheet := 1 },
       { input_sheet := 0, start_row := 4, num_rows := 3,
         output_file := 1, output_sheet := 2 },
       { input_sheet := 1, start_row := 0, num_rows := 1,
         output_file := 1, output_sheet := 2 },
       { input_sheet := 1, start_row := 1, num_rows := 4,
         output_file := 2, output_sheet := 1 }] ∧
    (calculate_output_distribution [7, 5] 2 4).total_output_sheets = 3 ∧
    (calculate_output_distribution [7, 5] 2 4).total_output_files = 2 := by
  decide

/-- C3: Planner count formula.  For all `G ≥ 1`, `R ≥ 1` and any ordered list
of group sizes (zeros allowed): the reported output-group total is
`⌈total / R⌉` (stated as its Galois characterization: the least `m` with
`total ≤ R * m`) and the artifact total is `⌈groups / G⌉`; a zero-size group
contributes no segment, and a group of size 0 leaves the walk state untouched
(consumes no capacity); zero total records yield no segments, zero output
groups and zero artifacts. -/
theorem planner_output_counts (sizes : List Nat) (G R : Nat) (hG : 1 ≤ G) (hR : 1 ≤ R) :
    (∀ m, (calculate_output_distribution sizes G R).total_output_sheets ≤ m ↔
      sizes.sum ≤ R * m) ∧
    (∀ m, (calculate_output_distribution sizes G R).total_output_files ≤ m ↔
      (calculate_output_distribution sizes G R).total_output_sheets ≤ G * m) ∧
    (∀ i, sizes.getD i 0 = 0 →
      (calculate_output_distribution sizes G R).data_segments.filter
        (fun s => s.input_sheet == i) = []) ∧
    (∀ (fuel pos : Nat) (st : PlanState) (i : Nat),
      distributeGroup R G i 0 fuel 0 pos st = st) ∧
    (sizes.sum = 0 →
      (calculate_output_distribution sizes G R).data_segments = [] ∧
      (calculate_output_distribution sizes G R).total_output_sheets = 0 ∧
      (calculate_output_distribution sizes G R).total_output_files = 0) := by
  refine ⟨?_, ?_, ?_, ?_, ?_⟩
  · intro m
    exact ceilDiv_le_iff hR sizes.sum m
  · intro m
    exact ceilDiv_le_iff hG (ceilDiv sizes.sum R) m
  · intro i hz
    have hcov := (calculate_segments_spec sizes G R hG hR).2.2.2.2 i
    rw [hz] at hcov
    exact covers_eq_nil hcov fun s hs =>
      ((calculate_segments_spec sizes G R hG hR).2.2.1 s (List.mem_of_mem_filter hs)).1
  · intro fuel pos st i
    cases fuel with
    | zero => rfl
    | succ fuel => exact distributeGroup_done R G i 0 fuel 0 pos st (by omega)
  · intro hsum
    have hflat := (calculate_segments_spec sizes G R hG hR).1
    have hzero : (calculate_output_distribution sizes G R).data_segments.flatMap
        segRecords = [] := by
      rw [hflat]
      have hl : (sourceRecords sizes).length = 0 := by
        rw [sourceRecords_length, hsum]
      exact List.length_eq_zero.mp hl
    have hsegs0 : (calculate_output_distribution sizes G R).data_segments = [] := by
      rcases hds : (calculate_output_distribution sizes G R).data_segments with _ | ⟨s, rest⟩
      · rfl
      · exfalso
        rw [hds, List.flatMap_cons] at hzero
        have hnum := ((calculate_segments_spec sizes G R hG hR).2.2.1 s
          (by rw [hds]; exact List.mem_cons_self _ _)).1
        have hsr : segRecords s = [] := (List.append_eq_nil.mp hzero).1
        have hl : (segRecords s).length = s.num_rows := by
          unfold segRecords
          simp
        rw [hsr] at hl
        simp at hl
        omega
    refine ⟨hsegs0, ?_, ?_⟩
    · show ceilDiv sizes.sum R = 0
      rw [hsum]
      exact Nat.div_eq_of_lt (by omega)
    · show ceilDiv (ceilDiv sizes.sum R) G = 0
      rw [hsum]
      rw [show ceilDiv 0 R = 0 from Nat.div_eq_of_lt (by omega)]
      exact Nat.div_eq_of_lt (by omega)

theorem planner_output_counts_witness :
    (calculate_output_distribution [7, 5] 2 4).total_output_sheets ≤ 3 ↔
      ([7, 5] : List Nat).sum ≤ 4 * 3 :=
  (planner_output_counts [7, 5] 2 4 (by decide) (by decide)).1 3

/-- C4: Capacity invariants.  In every plan the planner produces (and hence
in every prefix of it — every state the Consolidator reaches while writing
the planned segments in order): the rows assigned to any single output
(file, sheet) target never exceed `R`; every segment's destination sheet slot
lies in `[1, G]`; and any single artifact holds at most `G` distinct output
groups. -/
theorem planner_capacity_invariants (sizes : List Nat) (G R : Nat) (hG : 1 ≤ G) (hR : 1 ≤ R) :
    (∀ pre suf k, (calculate_output_distribution sizes G R).data_segments = pre ++ suf →
      keySum pre k ≤ R) ∧
    (∀ s ∈ (calculate_output_distribution sizes G R).data_segments,
      1 ≤ s.output_sheet ∧ s.output_sheet ≤ G) ∧
    (∀ f, (((calculate_output_distribution sizes G R).data_segments.filter
        (fun s => s.output_file == f)).map (fun s => s.output_sheet)).toFinset.card ≤ G) := by
  obtain ⟨_, _, h3, h4, _⟩ := calculate_segments_spec sizes G R hG hR
  refine ⟨?_, ?_, ?_⟩
  · intro pre suf k heq
    have htot := h4 k
    rw [heq, keySum_append] at htot
    omega
  · intro s hs
    exact ⟨(h3 s hs).2.1, (h3 s hs).2.2⟩
  · intro f
    have hsub : (((calculate_output_distribution sizes G R).data_segments.filter
        (fun s => s.output_file == f)).map (fun s => s.output_sheet)).toFinset ⊆
        Finset.Icc 1 G := by
      intro x hx
      rw [List.mem_toFinset] at hx
      obtain ⟨s, hs, hxs⟩ := List.mem_map.mp hx
      have hs' := h3 s (List.mem_of_mem_filter hs)
      rw [Finset.mem_Icc, ← hxs]
      exact ⟨hs'.2.1, hs'.2.2⟩
    have hcard := Finset.card_le_card hsub
    rw [Nat.card_Icc] at hcard
    omega

theorem planner_capacity_invariants_witness :
    keySum (calculate_output_distribution [7, 5] 2 4).data_segments (1, 2) ≤ 4 :=
  (planner_capacity_invariants [7, 5] 2 4 (by decide) (by decide)).1
    (calculate_output_distribution [7, 5] 2 4).data_segments [] (1, 2) (by simp)

/-! ### Two-phase (database) mode: the staging store -/

/-- One row of the SQLite staging table `excel_data`
(src/excel_splitter_db.py, lines 51-59): the order key (source_sheet,
row_num) plus the two retained field values.  The AUTOINCREMENT surrogate id
is the row's physical position in the store list and is not modelled
separately.  `α` is the type of cell values. -/
structure DBRecord (α : Type) where
  source_sheet : Nat
  row_num : Nat
  serial : α
  qri : α
  deriving DecidableEq

/-- The indexed order key `(source_sheet, row_num)`
(src/excel_splitter_db.py, line 62). -/
def recKey {α : Type} (r : DBRecord α) : Nat × Nat := (r.source_sheet, r.row_num)

/-- Sorted insertion, used to model the `ORDER BY source_sheet, row_num` of
`get_data_for_sheet`: SQLite returns the stored rows sorted by the indexed
key, independently of physical insertion order. -/
def insertByKey {α : Type} (r : DBRecord α) : List (DBRecord α) → List (DBRecord α)
  | [] => [r]
  | x :: xs => if lexLe (recKey r) (recKey x) then r :: x :: xs else x :: insertByKey r xs

/-- Sort a stored table by the order key (the effect of
`ORDER BY source_sheet, row_num`). -/
def orderByKey {α : Type} : List (DBRecord α) → List (DBRecord α)
  | [] => []
  | r :: rs => insertByKey r (orderByKey rs)

theorem insertByKey_perm {α : Type} (r : DBRecord α) (l : List (DBRecord α)) :
    List.Perm (insertByKey r l) (r :: l) := by
  induction l with
  | nil => exact List.Perm.refl _
  | cons x xs ih =>
    by_cases h : lexLe (recKey r) (recKey x)
    · rw [insertByKey, if_pos h]
    · rw [insertByKey, if_neg h]
      exact (ih.cons x).trans (List.Perm.swap r x xs)

theorem orderByKey_perm {α : Type} (l : List (DBRecord α)) :
    List.Perm (orderByKey l) l := by
  induction l with
  | nil => exact List.Perm.refl _
  | cons r rs ih => exact (insertByKey_perm r (orderByKey rs)).trans (ih.cons r)

theorem pairwise_insertByKey {α : Type} (r : DBRecord α) (l : List (DBRecord α))
    (h : l.Pairwise fun a b => lexLe (recKey a) (recKey b)) :
    (insertByKey r l).Pairwise fun a b => lexLe (recKey a) (recKey b) := by
  induction l with
  | nil => simp [insertByKey]
  | cons x xs ih =>
    obtain ⟨hx, hxs⟩ := List.pairwise_cons.mp h
    by_cases hle : lexLe (recKey r) (recKey x)
    · rw [insertByKey, if_pos hle]
      refine List.pairwise_cons.mpr ⟨?_, h⟩
      intro b hb
      rcases List.mem_cons.mp hb with hb1 | hb1
      · rw [hb1]
        exact hle
      · exact lexLe_trans hle (hx b hb1)
    · rw [insertByKey, if_neg hle]
      have hrx : lexLe (recKey x) (recKey r) := (lexLe_total _ _).resolve_left hle
      refine List.pairwise_cons.mpr ⟨?_, ih hxs⟩
      intro b hb
      have hmem : b ∈ r :: xs := (insertByKey_perm r xs).mem_iff.mp hb
      rcases List.mem_cons.mp hmem with hb1 | hb1
      · rw [hb1]
        exact hrx
      · exact hx b hb1

theorem pairwise_orderByKey {α : Type} (l : List (DBRecord α)) :
    (orderByKey l).Pairwise fun a b => lexLe (recKey a) (recKey b) := by
  induction l with
  | nil => exact List.Pairwise.nil
  | cons r rs ih => exact pairwise_insertByKey r _ ih

/-- Two key-sorted lists that are permutations of each other and whose keys
are pairwise distinct are equal: the staging store's key-sorted view is
unique. -/
theorem sorted_perm_eq {α : Type} :
    ∀ (l₁ l₂ : List (DBRecord α)), List.Perm l₁ l₂ →
      l₁.Pairwise (fun a b => lexLe (recKey a) (recKey b)) →
      l₂.Pairwise (fun a b => lexLe (recKey a) (recKey b)) →
      (l₁.map recKey).Nodup → l₁ = l₂ := by
  intro l₁
  induction l₁ with
  | nil =>
    intro l₂ hp _ _ _
    exact (hp.symm.eq_nil).symm
  | cons a t₁ ih =>
    intro l₂ hp hs₁ hs₂ hnd
    cases l₂ with
    | nil => exact absurd hp.eq_nil (by simp)
    | cons b t₂ =>
      rw [List.map_cons, List.nodup_cons] at hnd
      by_cases hab : a = b
      · subst hab
        have ht : List.Perm t₁ t₂ := hp.cons_inv
        have heq := ih t₂ ht (List.pairwise_cons.mp hs₁).2 (List.pairwise_cons.mp hs₂).2 hnd.2
        rw [heq]
      · exfalso
        have ha2 : a ∈ b :: t₂ := hp.mem_iff.mp (List.mem_cons_self a t₁)
        have hat2 : a ∈ t₂ := by
          rcases List.mem_cons.mp ha2 with h | h
          · exact absurd h hab
          · exact h
        have hba : lexLe (recKey b) (recKey a) := (List.pairwise_cons.mp hs₂).1 a hat2
        have hb1 : b ∈ a :: t₁ := hp.symm.mem_iff.mp (List.mem_cons_self b t₂)
        have hbt1 : b ∈ t₁ := by
          rcases List.mem_cons.mp hb1 with h | h
          · exact absurd h.symm hab
          · exact h
        have hab' : lexLe (recKey a) (recKey b) := (List.pairwise_cons.mp hs₁).1 b hbt1
        have hkey : recKey a = recKey b := lexLe_antisymm hab' hba
        refine hnd.1 ?_
        rw [hkey]
        exact List.mem_map.mpr ⟨b, hbt1, rfl⟩

/-- Emission query `get_data_for_sheet` (src/excel_splitter_db.py,
lines 203-227): `SELECT serial, qri FROM excel_data ORDER BY source_sheet,
row_num LIMIT row_count OFFSET start_row - 1`.  The stored rows are returned
sorted by the indexed order key, the first `start_row - 1` sorted rows are
skipped, at most `row_count` are returned, and only the two value columns are
projected. -/
def get_data_for_sheet {α : Type} (store : List (DBRecord α))
    (start_row row_count : Nat) : List (α × α) :=
  (((orderByKey store).drop (start_row - 1)).take row_count).map fun r => (r.serial, r.qri)

/-- An input worksheet as seen by `read_sheet_to_db`: the column count of its
header and its data rows, each a list of cell values (pandas pads every row
to the header width). -/
structure Sheet (α : Type) where
  columns : Nat
  rows : List (List α)
  deriving DecidableEq

/-- Ingestion `read_sheet_to_db` (src/excel_splitter_db.py, lines 75-122) for
one sheet of rank `sheet_idx`: when the sheet has at least two columns, the
first two cell values of every data row are stored as (serial, qri), with
`row_num` counting 1, 2, …; otherwise a warning is logged and nothing is
stored.  `dflt` stands for the NaN filler pandas substitutes for a missing
cell. -/
def read_sheet_to_db {α : Type} (sheet_idx : Nat) (sheet : Sheet α) (dflt : α) :
    List (DBRecord α) :=
  if 2 ≤ sheet.columns then
    sheet.rows.enum.map fun p =>
      { source_sheet := sheet_idx, row_num := p.1 + 1,
        serial := p.2.getD 0 dflt, qri := p.2.getD 1 dflt }
  else []

/-- C5: Staging Store ordering contract.  For every contiguous logical range,
the emission query returns records ordered by the order key
(source_sheet, row_num), and — because the key is indexed and the keys
produced by per-group ingestion are pairwise distinct — the result does not
depend on the physical insertion order: two stores that are permutations of
each other answer every query identically.  The third conjunct shows a single
ingested sheet indeed has pairwise-distinct keys. -/
theorem staging_query_order (s₁ s₂ : List (DBRecord Nat)) (hperm : List.Perm s₁ s₂)
    (hkeys : (s₁.map recKey).Nodup) (start_row row_count : Nat) :
    get_data_for_sheet s₁ start_row row_count = get_data_for_sheet s₂ start_row row_count ∧
    (((orderByKey s₁).drop (start_row - 1)).take row_count).Pairwise
      (fun a b => lexLe (recKey a) (recKey b)) ∧
    (∀ (idx : Nat) (sheet : Sheet Nat) (dflt : Nat),
      ((read_sheet_to_db idx sheet dflt).map recKey).Nodup) := by
  refine ⟨?_, ?_, ?_⟩
  · have hnd₁ : ((orderByKey s₁).map recKey).Nodup :=
      (((orderByKey_perm s₁).map recKey).nodup_iff).mpr hkeys
    have heq : orderByKey s₁ = orderByKey s₂ :=
      sorted_perm_eq _ _
        ((orderByKey_perm s₁).trans (hperm.trans (orderByKey_perm s₂).symm))
        (pairwise_orderByKey s₁) (pairwise_orderByKey s₂) hnd₁
    unfold get_data_for_sheet
    rw [heq]
  · exact List.Pairwise.sublist
      ((List.take_sublist _ _).trans (List.drop_sublist _ _))
      (pairwise_orderByKey s₁)
  · intro idx sheet dflt
    unfold read_sheet_to_db
    by_cases h2 : 2 ≤ sheet.columns
    · rw [if_pos h2, List.map_map]
      have hmap : (recKey ∘ fun p : Nat × List Nat =>
          ({ source_sheet := idx, row_num := p.1 + 1, serial := p.2.getD 0 dflt,
             qri := p.2.getD 1 dflt } : DBRecord Nat)) =
          (fun i : Nat => (idx, i + 1)) ∘ Prod.fst := rfl
      rw [hmap, ← List.map_map, List.enum_map_fst]
      refine List.Nodup.map ?_ (List.nodup_range _)
      intro a b hab
      have := congrArg Prod.snd hab
      simpa using this
    · rw [if_neg h2]
      simp

theorem staging_query_order_witness :
    get_data_for_sheet
        [({ source_sheet := 2, row_num := 1, serial := 30, qri := 40 } : DBRecord Nat),
         { source_sheet := 1, row_num := 1, serial := 10, qri := 20 }] 1 5 =
      get_data_for_sheet
        [({ source_sheet := 1, row_num := 1, serial := 10, qri := 20 } : DBRecord Nat),
         { source_sheet := 2, row_num := 1, serial := 30, qri := 40 }] 1 5 :=
  (staging_query_order _ _ (by decide) (by decide) 1 5).1

/-- C10: Staging-mode schema truncation.  Ingestion keeps only the first two
field values of every record (stored as `serial` and `qri`); a sheet with
fewer than two columns contributes zero records; emission returns only those
two fields — every emitted pair is the (serial, qri) of some stored record,
so all further input fields are dropped from the output. -/
theorem staging_schema_truncation :
    (∀ (idx : Nat) (sheet : Sheet Nat) (dflt : Nat), sheet.columns < 2 →
      read_sheet_to_db idx sheet dflt = []) ∧
    (∀ (idx : Nat) (sheet : Sheet Nat) (dflt : Nat), 2 ≤ sheet.columns →
      (read_sheet_to_db idx sheet dflt).map (fun r => (r.serial, r.qri)) =
        sheet.rows.map fun row => (row.getD 0 dflt, row.getD 1 dflt)) ∧
    (∀ (store : List (DBRecord Nat)) (start_row row_count : Nat),
      ∀ p ∈ get_data_for_sheet store start_row row_count,
        ∃ r, r ∈ store ∧ p = (r.serial, r.qri)) := by
  refine ⟨?_, ?_, ?_⟩
  · intro idx sheet dflt h
    unfold read_sheet_to_db
    rw [if_neg (by omega)]
  · intro idx sheet dflt h
    unfold read_sheet_to_db
    rw [if_pos h, List.map_map]
    have hmap : ((fun r : DBRecord Nat => (r.serial, r.qri)) ∘ fun p : Nat × List Nat =>
        ({ source_sheet := idx, row_num := p.1 + 1, serial := p.2.getD 0 dflt,
           qri := p.2.getD 1 dflt } : DBRecord Nat)) =
        (fun row : List Nat => (row.getD 0 dflt, row.getD 1 dflt)) ∘ Prod.snd := rfl
    rw [hmap, ← List.map_map, List.enum_map_snd]
  · intro store start_row row_count p hp
    unfold get_data_for_sheet at hp
    obtain ⟨r, hr, hpr⟩ := List.mem_map.mp hp
    refine ⟨r, ?_, hpr.symm⟩
    have h1 : r ∈ (orderByKey store).drop (start_row - 1) :=
      (List.take_sublist _ _).subset hr
    have h2 : r ∈ orderByKey store := (List.drop_sublist _ _).subset h1
    exact (orderByKey_perm store).mem_iff.mp h2

theorem staging_schema_truncation_witness :
    read_sheet_to_db 3 ({ columns := 1, rows := [[5]] } : Sheet Nat) 0 = [] :=
  staging_schema_truncation.1 3 { columns := 1, rows := [[5]] } 0 (by decide)

/-! ### Output Consolidator (rewrite mode) -/

/-- Look up a sheet's data rows in an output workbook, modelled as an ordered
(sheet index, data rows) association list. -/
def lookupSheet {α : Type} : List (Nat × List (List α)) → Nat → Option (List (List α))
  | [], _ => none
  | p :: rest, i => if p.1 = i then some p.2 else lookupSheet rest i

/-- Replace a sheet's data rows in an output workbook (appending the sheet if
absent). -/
def setSheet {α : Type} : List (Nat × List (List α)) → Nat → List (List α) →
    List (Nat × List (List α))
  | [], i, rows => [(i, rows)]
  | p :: rest, i, rows => if p.1 = i then (i, rows) :: rest else p :: setSheet rest i rows

/-- Sheet-merge step of `process_data_segment` (excel_splitter_rewrite.py,
lines 275-322), success path, acting on one output workbook: an empty batch
is skipped with a logged error (lines 278-280); if the destination sheet does
not exist the batch becomes a new sheet (line 310); otherwise the sheet is
read back and the batch is appended after its current content — with the
batch's first data row dropped when the segment started at the top of its
source group (line 319: `df.iloc[1:] if include_header else df`, where
`include_header = start_row == 0`). -/
def process_data_segment_write {α : Type} (book : List (Nat × List (List α)))
    (sheet_idx : Nat) (df : List (List α)) (include_header : Bool) :
    List (Nat × List (List α)) :=
  if df.isEmpty then book
  else
    match lookupSheet book sheet_idx with
    | none => book ++ [(sheet_idx, df)]
    | some existing =>
        setSheet book sheet_idx (existing ++ (if include_header then df.drop 1 else df))

/-- C6 counterexample: re-applying the Consolidator with the batch already
written does not leave the target unchanged — the batch [[1], [2]] written
twice to sheet 1 of an empty workbook yields the rows [[1], [2], [1], [2]],
not [[1], [2]]. -/
theorem consolidator_not_idempotent :
    process_data_segment_write
        (process_data_segment_write ([] : List (Nat × List (List Nat))) 1 [[1], [2]] false)
        1 [[1], [2]] false ≠
      process_data_segment_write ([] : List (Nat × List (List Nat))) 1 [[1], [2]] false := by
  decide

/-- C6 (amended): re-applying the Consolidator to a target with a batch
identical to one already written APPENDS the batch's effective rows again
(all of them, or all but the first when the batch began its source group):
the doubly-written sheet holds `df ++ effective df`, and the second
application is a no-op exactly when the effective row list is empty — i.e.
only in the degenerate case of a single-row group-initial batch. -/
theorem consolidator_reapply (sheet_idx : Nat) (df : List (List Nat))
    (include_header : Bool) (hne : df ≠ []) :
    process_data_segment_write
        (process_data_segment_write [] sheet_idx df include_header)
        sheet_idx df include_header =
      [(sheet_idx, df ++ (if include_header then df.drop 1 else df))] ∧
    (process_data_segment_write
        (process_data_segment_write [] sheet_idx df include_header)
        sheet_idx df include_header =
      process_data_segment_write [] sheet_idx df include_header ↔
        (if include_header then df.drop 1 else df) = []) := by
  have hemp : ¬ df.isEmpty = true := by
    simp [List.isEmpty_iff, hne]
  have h1 : process_data_segment_write ([] : List (Nat × List (List Nat)))
      sheet_idx df include_header = [(sheet_idx, df)] := by
    unfold process_data_segment_write
    rw [if_neg hemp]
    rfl
  rw [h1]
  have h2 : process_data_segment_write [(sheet_idx, df)] sheet_idx df include_header =
      [(sheet_idx, df ++ (if include_header then df.drop 1 else df))] := by
    unfold process_data_segment_write
    rw [if_neg hemp]
    have hl : lookupSheet [(sheet_idx, df)] sheet_idx = some df := by
      unfold lookupSheet
      simp
    rw [hl]
    unfold setSheet
    simp
  rw [h2]
  refine ⟨rfl, ?_, ?_⟩
  · intro he
    have h3 : df ++ (if include_header then df.drop 1 else df) = df := by
      injection he with h4 _
      exact congrArg Prod.snd h4
    have h5 := congrArg List.length h3
    rw [List.length_append] at h5
    exact List.length_eq_zero.mp (by omega)
  · intro he
    rw [he, List.append_nil]

theorem consolidator_reapply_witness :
    process_data_segment_write
        (process_data_segment_write [] 1 [[9], [8]] false) 1 [[9], [8]] false =
      [(1, [[9], [8]] ++ (if false then ([[9], [8]] : List (List Nat)).drop 1
        else [[9], [8]]))] :=
  (consolidator_reapply 1 [[9], [8]] false (by decide)).1

/-! ### Coordinator failure handling (rewrite mode) -/

/-- Outcome of one `process_data_segment` call
(excel_splitter_rewrite.py, lines 251-349).  `raised` — an exception escaping
the call — is included to state the claim's expected behavior; the code never
produces it. -/
inductive SegOutcome where
  | readFailed
  | written
  | recovered
  | logFailed
  | raised
  deriving DecidableEq

/-- Control-flow model of `process_data_segment`'s error handling: if the
read returns an empty frame, log and return (lines 278-280); try the locked
read-modify-write (lines 300-322); on exception, fall back to re-reading all
sheets and rewriting the whole artifact (lines 323-345); if the fallback also
raises, log `Không thể khôi phục file` and return (lines 346-347) — the outer
`except` (lines 348-349) additionally swallows anything else, so no exception
ever escapes. -/
def process_data_segment_outcome (read_empty primary_fails fallback_fails : Bool) :
    SegOutcome :=
  if read_empty then SegOutcome.readFailed
  else if primary_fails then
    (if fallback_fails then SegOutcome.logFailed else SegOutcome.recovered)
  else SegOutcome.written

/-- The Coordinator `split_excel_file_distributed`
(excel_splitter_rewrite.py, lines 395-407): every planned segment is
submitted to the pool, each worker's outcome is collected independently, and
a failure of one segment has no effect on any other.  `behavior` assigns to
each segment whether its read comes back empty / its primary write fails /
its fallback fails. -/
def runSegments (behavior : Nat → Bool × Bool × Bool) (segs : List Nat) :
    List SegOutcome :=
  segs.map fun s =>
    process_data_segment_outcome (behavior s).1 (behavior s).2.1 (behavior s).2.2

/-- C7 counterexample: when both the locked write and the reconstruction
fallback fail, `process_data_segment` logs the error and returns — it does
not raise `WriteFailed` (or anything else). -/
theorem consolidator_fallback_swallows :
    process_data_segment_outcome false true true = SegOutcome.logFailed ∧
    process_data_segment_outcome false true true ≠ SegOutcome.raised := by
  decide

/-- C7 (amended): no outcome of any segment is a propagated exception — a
double failure is logged and swallowed, not raised as `WriteFailed` — and the
Coordinator processes every segment regardless of any other segment's
failure: each position's outcome depends only on that segment. -/
theorem consolidator_failure_contained (behavior : Nat → Bool × Bool × Bool)
    (segs : List Nat) :
    (∀ o ∈ runSegments behavior segs, o ≠ SegOutcome.raised) ∧
    (runSegments behavior segs).length = segs.length ∧
    (∀ pre s post, segs = pre ++ s :: post →
      runSegments behavior segs =
        runSegments behavior pre ++
          process_data_segment_outcome (behavior s).1 (behavior s).2.1 (behavior s).2.2 ::
            runSegments behavior post) := by
  refine ⟨?_, ?_, ?_⟩
  · intro o ho
    obtain ⟨s, _, hso⟩ := List.mem_map.mp ho
    rw [← hso]
    unfold process_data_segment_outcome
    by_cases h1 : (behavior s).1 <;> by_cases h2 : (behavior s).2.1 <;>
      by_cases h3 : (behavior s).2.2 <;> simp [h1, h2, h3]
  · exact List.length_map _ _
  · intro pre s post heq
    rw [heq]
    unfold runSegments
    rw [List.map_append, List.map_cons]

theorem consolidator_failure_contained_witness :
    runSegments (fun _ => (false, true, true)) [0, 1] =
      runSegments (fun _ => (false, true, true)) [] ++
        process_data_segment_outcome false true true ::
          runSegments (fun _ => (false, true, true)) [1] :=
  (consolidator_failure_contained (fun _ => (false, true, true)) [0, 1]).2.2 [] 0 [1] rfl

/-! ### Chunked Reader (rewrite mode) -/

/-- Chunked Reader `read_sheet_data` (excel_splitter_rewrite.py,
lines 81-110): reads the data rows `[start_row, start_row + num_rows)` of a
source sheet (start_row = 0 reads from the top with the header consumed as
column names; otherwise rows 1..start_row are skipped).  pandas clamps the
request to the rows that exist — the function performs no range check, so an
out-of-range request yields a truncated (possibly empty) result rather than
an error. -/
def read_sheet_data {α : Type} (sheet : List (List α)) (start_row num_rows : Nat) :
    List (List α) :=
  (sheet.drop start_row).take num_rows

/-- C8 counterexample: on a 3-row source group, a read of 5 rows at offset 2
(offset + length = 7 > 3) returns the single remaining row — a truncated
result, not a `RangeUnavailable` failure (the reader has no error outcome at
all). -/
theorem read_out_of_range_not_error :
    read_sheet_data ([[0], [1], [2]] : List (List Nat)) 2 5 = [[2]] ∧
    (read_sheet_data ([[0], [1], [2]] : List (List Nat)) 2 5).length < 5 := by
  decide

/-- C8 (amended): whenever `offset + length` exceeds the group's row count,
the read returns exactly the rows `[offset, N)` that still exist — truncated,
possibly empty — and no error is raised. -/
theorem read_out_of_range_truncates {α : Type} (sheet : List (List α))
    (start_row num_rows : Nat) (h : sheet.length < start_row + num_rows) :
    read_sheet_data sheet start_row num_rows = sheet.drop start_row ∧
    (read_sheet_data sheet start_row num_rows).length = sheet.length - start_row := by
  unfold read_sheet_data
  refine ⟨?_, ?_⟩
  · apply List.take_of_length_le
    rw [List.length_drop]
    omega
  · rw [List.length_take, List.length_drop]
    omega

theorem read_out_of_range_truncates_witness :
    read_sheet_data ([[7]] : List (List Nat)) 0 3 = ([[7]] : List (List Nat)).drop 0 :=
  (read_out_of_range_truncates [[7]] 0 3 (by decide)).1

/-! ### Input Analyzer (rewrite mode) -/

/-- Result record of `analyze_input_file`
(excel_splitter_rewrite.py, lines 140-145): sheet count, per-sheet
(total_rows, data_rows) in listing order, and the data-row total. -/
structure AnalysisResult where
  num_sheets : Nat
  sheets_info : List (Nat × Nat)
  total_data_rows : Nat
  deriving DecidableEq

/-- `count_rows_in_sheet` (excel_splitter_rewrite.py, lines 47-79): a sheet
that can be counted (modelled `some total_rows`) yields
(total_rows, total_rows - 1); when both counting methods fail — for example
the sheet disappeared after listing — the error is merely logged and (0, 0)
is returned. -/
def count_rows_in_sheet (sheet : Option Nat) : Nat × Nat :=
  match sheet with
  | some total_rows => (total_rows, total_rows - 1)
  | none => (0, 0)

/-- `analyze_input_file` (excel_splitter_rewrite.py, lines 112-148): when the
source cannot be opened, `pd.ExcelFile(input_file)` raises and the exception
propagates out of the analyzer (modelled as `Except.error ()`); otherwise
every listed sheet is counted with `count_rows_in_sheet` and the data totals
are summed. -/
def analyze_input_file (source : Option (List (Option Nat))) :
    Except Unit AnalysisResult :=
  match source with
  | none => Except.error ()
  | some sheets =>
      Except.ok
        { num_sheets := sheets.length
          sheets_info := sheets.map count_rows_in_sheet
          total_data_rows := (sheets.map fun s => (count_rows_in_sheet s).2).sum }

/-- C9 counterexample: a source listing two sheets of which the second
disappears before counting is analyzed SUCCESSFULLY, the vanished sheet
silently recorded as (0, 0) — no GroupMissing-style error is raised. -/
theorem analyzer_no_group_missing_error :
    analyze_input_file (some [some 4, none]) =
      Except.ok { num_sheets := 2, sheets_info := [(4, 3), (0, 0)],
                  total_data_rows := 3 } ∧
    analyze_input_file (some [some 4, none]) ≠ Except.error () := by
  refine ⟨rfl, ?_⟩
  intro h
  exact Except.noConfusion h

/-- C9 (amended): analysis fails (an exception propagates) when the input
source cannot be opened; but a group that disappears between listing and
counting is silently recorded as 0 total rows and 0 data rows, and the
analysis succeeds — no GroupMissing error exists. -/
theorem analyzer_failure_modes :
    analyze_input_file none = Except.error () ∧
    (∀ sheets : List (Option Nat),
      analyze_input_file (some sheets) =
        Except.ok
          { num_sheets := sheets.length
            sheets_info := sheets.map count_rows_in_sheet
            total_data_rows := (sheets.map fun s => (count_rows_in_sheet s).2).sum }) ∧
    count_rows_in_sheet none = (0, 0) :=
  ⟨rfl, fun _ => rfl, rfl⟩

end ExcelSplitter
